import Mathlib

/-!
Shallow embedding of the BLE byte-stream transport layer of
`s1-micropython` (`src/main.c`) and verification of its specification.

The state and operations are translated directly from the C source:
  * the two REPL ring buffers `rx` / `tx` (struct with `buffer`, `head`,
    `tail`, length `RING_BUFFER_LENGTH`) become `RingBuf` with the
    length `N` as an explicit parameter (the source fixes
    `N = RING_BUFFER_LENGTH = 1024 + 45`);
  * the byte-push loop shared by `mp_hal_stdout_tx_strn` and the
    `BLE_GATTS_EVT_WRITE` arm of `SWI2_IRQHandler` becomes
    `RingBuf.pushBytes`;
  * the byte-pop code shared by `ble_send_pending_data` and
    `mp_hal_stdin_rx_chr` becomes `RingBuf.pop`;
  * `ble_send_pending_data` becomes a function of the tx buffer, the
    negotiated MTU, and a script of `sd_ble_gatts_hvx` return codes;
  * the BLE-event arms of `SWI2_IRQHandler` become `SWI2_handle_ble_evt`
    over an explicit event datatype, recording the softdevice calls they
    make as a list of `BleAction`s;
  * `mp_hal_stdin_rx_chr` becomes a fuel-indexed loop over an explicit
    environment (arrivals delivered during `sd_app_evt_wait`).

All machine integers involved stay far below 2^16 except the
`client_mtu - 3` subtraction, which is modelled with an explicit
`% 2^16` as in the 16-bit hardware arithmetic.
-/

namespace S1

/-- `#define MAX_MTU_LENGTH 128` (main.c line 114). -/
def MAX_MTU_LENGTH : Nat := 128

/-- `#define RING_BUFFER_LENGTH (1024 + 45)` (main.c line 125). -/
def RING_BUFFER_LENGTH : Nat := 1024 + 45

/-- `BLE_CONN_HANDLE_INVALID` from the Nordic headers (0xFFFF). -/
def BLE_CONN_HANDLE_INVALID : Nat := 0xFFFF

/-- One of the two REPL ring buffers (main.c lines 130-144): backing
storage of `RING_BUFFER_LENGTH` bytes plus `uint16_t head` and
`uint16_t tail`.  The length is passed to each operation as `N`. -/
structure RingBuf where
  buffer : List Nat
  head : Nat
  tail : Nat
deriving Repr, DecidableEq

/-- The zero-initialised buffer (`.buffer = "", .head = 0, .tail = 0`). -/
def RingBuf.empty (N : Nat) : RingBuf :=
  { buffer := List.replicate N 0, head := 0, tail := 0 }

/-- One iteration of the push loop (main.c lines 214-236 and 814-836):
compute `next = head + 1`, wrap to 0 at `N`, fail if the buffer is full
(`next == tail`), otherwise store the byte at `head` and advance. -/
def RingBuf.push (N : Nat) (r : RingBuf) (b : Nat) : RingBuf × Bool :=
  let next := if r.head + 1 = N then 0 else r.head + 1
  if next = r.tail then (r, false)
  else ({ buffer := r.buffer.set r.head b, head := next, tail := r.tail }, true)

/-- The pop code (main.c lines 334-347, also 257-270): read the byte at
`tail`, advance `tail` with wrap-around.  The source only runs this when
`head != tail`. -/
def RingBuf.pop (N : Nat) (r : RingBuf) : Nat × RingBuf :=
  let next := if r.tail + 1 = N then 0 else r.tail + 1
  (r.buffer.getD r.tail 0, { r with tail := next })

/-- The push loop over a whole byte string, as in `mp_hal_stdout_tx_strn`
(main.c lines 208-237) and the `BLE_GATTS_EVT_WRITE` arm (lines
808-839): push bytes one at a time, break (dropping the remainder) as
soon as a push fails. -/
def RingBuf.pushBytes (N : Nat) (r : RingBuf) : List Nat → RingBuf
  | [] => r
  | b :: rest =>
    match RingBuf.push N r b with
    | (r', true) => RingBuf.pushBytes N r' rest
    | (_, false) => r

/-- `mp_hal_stdout_tx_strn` (main.c lines 208-237) is exactly the push
loop on the tx buffer. -/
def mp_hal_stdout_tx_strn (N : Nat) (tx : RingBuf) (str : List Nat) : RingBuf :=
  RingBuf.pushBytes N tx str

/-- Number of live bytes between `tail` and `head`. -/
def RingBuf.size (N : Nat) (r : RingBuf) : Nat :=
  if r.tail ≤ r.head then r.head - r.tail else r.head + N - r.tail

/-- The live contents of the ring buffer, in pop order. -/
def RingBuf.toList (N : Nat) (r : RingBuf) : List Nat :=
  (List.range (r.size N)).map fun i => r.buffer.getD ((r.tail + i) % N) 0

/-- Well-formedness: both indices in bounds (`uint16_t` values kept below
`N` by the wrap-around) and the backing storage of length `N`. -/
def RingBuf.WF (N : Nat) (r : RingBuf) : Prop :=
  r.head < N ∧ r.tail < N ∧ r.buffer.length = N

/-- `k` successive pops (as performed by `mp_hal_stdin_rx_chr` when data
is available, main.c lines 334-350). -/
def popList (N : Nat) : Nat → RingBuf → List Nat × RingBuf
  | 0, r => ([], r)
  | k + 1, r =>
    let p := RingBuf.pop N r
    let rest := popList N k p.2
    (p.1 :: rest.1, rest.2)
/-- Successive `BLE_GATTS_EVT_WRITE` events with no intervening reads:
each event runs the push loop on the rx buffer (main.c lines 808-839). -/
def writeEvents (N : Nat) (es : List (List Nat)) (r : RingBuf) : RingBuf :=
  es.foldl (RingBuf.pushBytes N) r
/-- Return codes of `sd_ble_gatts_hvx` as distinguished by
`ble_send_pending_data` (main.c lines 291-310). -/
inductive HvxResult
  | success
  | invalidState
  | invalidConnHandle
  | resources
  | other (code : Nat)
deriving Repr, DecidableEq

/-- Observable actions of the outbound sender. -/
inductive SendAction
  | attempt (data : List Nat)
  | delay100us
  | systemReset
deriving Repr, DecidableEq

/-- How one `ble_send_pending_data` call ended. -/
inductive SendResult
  | ok
  | notConnectedDiscard
  | reset
  | stuck
deriving Repr, DecidableEq

/-- The `hvx_try_again` retry loop (main.c lines 287-310), driven by the
script of transport return codes for the successive attempts: the
not-connected class returns at once, `NRF_ERROR_RESOURCES` waits 100 us
and retries the same chunk, any other nonzero code hits `assert_if` and
resets the system.  An exhausted script means the loop is still
retrying (`stuck`). -/
def sendRetry (chunk : List Nat) : List HvxResult → List SendAction × SendResult
  | [] => ([], .stuck)
  | res :: rest =>
    match res with
    | .invalidState => ([.attempt chunk], .notConnectedDiscard)
    | .invalidConnHandle => ([.attempt chunk], .notConnectedDiscard)
    | .resources =>
      let t := sendRetry chunk rest
      (.attempt chunk :: .delay100us :: t.1, t.2)
    | .success => ([.attempt chunk], .ok)
    | .other code =>
      if code % 65536 ≠ 0 then ([.attempt chunk, .systemReset], .reset)
      else ([.attempt chunk], .ok)

/-- The chunk-collection loop of `ble_send_pending_data` (main.c lines
255-277): pop bytes into `out_buffer` until the tx buffer drains,
breaking once `out_len >= negotiated_mtu` (checked after each copy).
`fuel` bounds the recursion; any `fuel ≥ size` is exact. -/
def popChunkAux (N mtu : Nat) : Nat → RingBuf → List Nat → List Nat × RingBuf
  | 0, r, out => (out, r)
  | fuel + 1, r, out =>
    if r.tail = r.head then (out, r)
    else
      let p := RingBuf.pop N r
      let out' := out ++ [p.1]
      if mtu ≤ out'.length then (out', p.2)
      else popChunkAux N mtu fuel p.2 out'

/-- Closed form of the number of bytes the collection loop extracts. -/
def chunkK (mtu sz outLen : Nat) : Nat :=
  if sz = 0 then 0 else min sz (max 1 (mtu - outLen))

/-- `ble_send_pending_data` (main.c lines 242-311): early-return on an
empty tx buffer, otherwise pop one chunk (at most `negotiated_mtu`
bytes) and run the hvx retry loop.  Returns the new tx buffer, the
observable actions, and how the call ended. -/
def ble_send_pending_data (N mtu : Nat) (tx : RingBuf) (script : List HvxResult) :
    RingBuf × List SendAction × SendResult :=
  if tx.head = tx.tail then (tx, [], .ok)
  else
    let pc := popChunkAux N mtu N tx []
    let sr := sendRetry pc.1 script
    (pc.2, sr.1, sr.2)
/-- The chunk `ble_send_pending_data` copies out of the tx buffer before
its first transmit attempt (`out_buffer` / `out_len` in the source). -/
def sentChunk (N mtu : Nat) (tx : RingBuf) : List Nat :=
  (popChunkAux N mtu N tx []).1

/-- Softdevice calls made by the BLE-event arms of `SWI2_IRQHandler`. -/
inductive BleAction
  | connParamUpdate (handle : Nat)
  | advStart
  | mtuReply (handle serverMtu : Nat)
  | phyUpdateAuto (handle : Nat)
  | disconnectPeer (handle : Nat)
  | sysAttrReply (handle : Nat)
  | secParamsDecline (handle : Nat)
deriving Repr, DecidableEq

/-- BLE events dispatched by the switch in `SWI2_IRQHandler`
(main.c lines 736-888). -/
inductive BleEvt
  | gapConnected (handle : Nat)
  | gapDisconnected
  | gapPhyUpdateRequest (handle : Nat)
  | gattsExchangeMtuRequest (handle clientMtu : Nat)
  | gattsWrite (data : List Nat)
  | gattcTimeout (handle : Nat)
  | gattsTimeout (handle : Nat)
  | gattsSysAttrMissing (handle : Nat)
  | gapSecParamsRequest (handle : Nat)
  | unused
deriving Repr, DecidableEq

/-- The globals the BLE event arms touch: `ble_handles.connection`,
`negotiated_mtu`, and the rx ring buffer. -/
structure BleState where
  connection : Nat
  negotiated_mtu : Nat
  rx : RingBuf
deriving Repr, DecidableEq

/-- The statically-initialised state: invalid connection handle, zero
`negotiated_mtu` (the `static uint16_t` at main.c line 119 has no
initialiser), empty rx buffer. -/
def initialBleState : BleState :=
  { connection := BLE_CONN_HANDLE_INVALID, negotiated_mtu := 0,
    rx := RingBuf.empty RING_BUFFER_LENGTH }

/-- The per-event switch of `SWI2_IRQHandler` (main.c lines 736-888),
returning the updated state and the softdevice calls made.  The
`client_mtu - 3` subtraction is 16-bit unsigned, hence the explicit
`% 2 ^ 16`. -/
def SWI2_handle_ble_evt (s : BleState) : BleEvt → BleState × List BleAction
  | .gapConnected h => ({ s with connection := h }, [.connParamUpdate h])
  | .gapDisconnected =>
    ({ s with connection := BLE_CONN_HANDLE_INVALID }, [.advStart])
  | .gapPhyUpdateRequest h => (s, [.phyUpdateAuto h])
  | .gattsExchangeMtuRequest h client_mtu =>
    ({ s with negotiated_mtu :=
        if MAX_MTU_LENGTH < client_mtu then MAX_MTU_LENGTH - 3
        else (client_mtu + 2 ^ 16 - 3) % 2 ^ 16 },
      [.mtuReply h MAX_MTU_LENGTH])
  | .gattsWrite ds =>
    ({ s with rx := s.rx.pushBytes RING_BUFFER_LENGTH ds }, [])
  | .gattcTimeout h => (s, [.disconnectPeer h])
  | .gattsTimeout h => (s, [.disconnectPeer h])
  | .gattsSysAttrMissing h => (s, [.sysAttrReply h])
  | .gapSecParamsRequest h => (s, [.secParamsDecline h])
  | .unused => (s, [])

/-- `max_payload` in the specification's vocabulary: the negotiated
payload bound that `ble_send_pending_data` enforces per chunk, i.e.
`negotiated_mtu`. -/
def max_payload (s : BleState) : Nat := s.negotiated_mtu

/-- Process a sequence of BLE events (resulting state). -/
def processEvts (s : BleState) (es : List BleEvt) : BleState :=
  es.foldl (fun t e => (SWI2_handle_ble_evt t e).1) s

/-- The rx/tx buffer pair as `mp_hal_stdin_rx_chr` sees them. -/
structure RxTx where
  rx : RingBuf
  tx : RingBuf
deriving Repr, DecidableEq

/-- Trace entries of the `mp_hal_stdin_rx_chr` loop, each recording the
state at which the step happened. -/
inductive ReadAction
  | calledSender (st : RxTx)
  | waited (st : RxTx)
  | popped (st : RxTx) (b : Nat)
deriving Repr, DecidableEq

/-- Environment of one loop iteration: the hvx result script used if
the sender transmits, and the write events the softdevice delivers
while the cpu sleeps in `sd_app_evt_wait`. -/
structure EnvStep where
  script : List HvxResult
  arrivals : List (List Nat)
deriving Repr

/-- `mp_hal_stdin_rx_chr` (main.c lines 317-351) as a fuel-indexed
loop.  Each iteration with an empty rx buffer invokes
`ble_send_pending_data`; then, iff both buffers are empty, the cpu
suspends in `sd_app_evt_wait` (write events arriving during the sleep
are applied to rx); once rx is non-empty the byte at `tail` is popped
and returned.  `none` means the fuel ran out with the loop still
spinning. -/
def mp_hal_stdin_rx_chr (N mtu : Nat) :
    Nat → (Nat → EnvStep) → Nat → RxTx → List ReadAction →
      Option (Nat × RxTx × List ReadAction)
  | 0, _, _, _, _ => none
  | fuel + 1, env, i, s, tr =>
    if s.rx.head = s.rx.tail then
      let sent := ble_send_pending_data N mtu s.tx (env i).script
      let s1 : RxTx := { s with tx := sent.1 }
      let tr1 := tr ++ [.calledSender s]
      if s1.tx.head = s1.tx.tail ∧ s1.rx.head = s1.rx.tail then
        let s2 : RxTx :=
          { s1 with rx := (env i).arrivals.foldl (RingBuf.pushBytes N) s1.rx }
        mp_hal_stdin_rx_chr N mtu fuel env (i + 1) s2 (tr1 ++ [.waited s1])
      else
        mp_hal_stdin_rx_chr N mtu fuel env (i + 1) s1 tr1
    else
      let p := RingBuf.pop N s.rx
      some (p.1, { s with rx := p.2 }, tr ++ [.popped s p.1])

/-- One ring-buffer operation as the firmware performs it: a push
attempt (push loop body) or a pop (both pop sites run only under a
`head != tail` guard). -/
inductive BufOp
  | push (b : Nat)
  | pop
deriving Repr, DecidableEq

def applyOp (N : Nat) (r : RingBuf) : BufOp → RingBuf
  | .push b => (r.push N b).1
  | .pop => if r.head = r.tail then r else (r.pop N).2

def applyOps (N : Nat) (ops : List BufOp) (r : RingBuf) : RingBuf :=
  ops.foldl (applyOp N) r

lemma getD_set_self {l : List Nat} {i : Nat} (b : Nat) (h : i < l.length) :
    (l.set i b).getD i 0 = b := by
  simp [List.getD_eq_getElem?_getD, List.getElem?_set, h]

lemma getD_set_ne {l : List Nat} {i j : Nat} (b : Nat) (h : i ≠ j) :
    (l.set i b).getD j 0 = l.getD j 0 := by
  simp [List.getD_eq_getElem?_getD, List.getElem?_set, h]

lemma mod_two_cases {a N : Nat} (h : a < 2 * N) :
    a % N = if a < N then a else a - N := by
  split
  · exact Nat.mod_eq_of_lt (by assumption)
  · rw [Nat.mod_eq_sub_mod (by omega)]
    exact Nat.mod_eq_of_lt (by omega)

namespace RingBuf

lemma size_le {N : Nat} {r : RingBuf} (hwf : r.WF N) : r.size N ≤ N - 1 := by
  obtain ⟨hh, ht, -⟩ := hwf
  simp only [RingBuf.size]
  split <;> omega

lemma size_pos {N : Nat} {r : RingBuf} (hwf : r.WF N) (hne : r.head ≠ r.tail) :
    0 < r.size N := by
  obtain ⟨hh, ht, -⟩ := hwf
  simp only [RingBuf.size]
  split <;> omega

lemma size_zero_of_eq {N : Nat} {r : RingBuf} (heq : r.head = r.tail) :
    r.size N = 0 := by
  simp only [RingBuf.size]
  split <;> omega

lemma length_toList {N : Nat} (r : RingBuf) : (r.toList N).length = r.size N := by
  simp [RingBuf.toList]

lemma wf_empty {N : Nat} (hN : 0 < N) : (RingBuf.empty N).WF N :=
  ⟨hN, hN, by simp [RingBuf.empty]⟩

lemma toList_empty (N : Nat) : (RingBuf.empty N).toList N = [] := by
  simp [RingBuf.toList, RingBuf.empty, RingBuf.size]

/-- The index one past the live region is exactly `head`. -/
lemma pos_size {N : Nat} {r : RingBuf} (hwf : r.WF N) :
    (r.tail + r.size N) % N = r.head := by
  obtain ⟨hh, ht, -⟩ := hwf
  simp only [RingBuf.size]
  split
  · rename_i h
    rw [Nat.add_sub_cancel' h]
    exact Nat.mod_eq_of_lt hh
  · have h1 : r.tail + (r.head + N - r.tail) = r.head + N := by omega
    rw [h1, Nat.add_mod_right]
    exact Nat.mod_eq_of_lt hh

/-- Indices of live bytes never alias the write position `head`. -/
lemma pos_ne_head {N : Nat} {r : RingBuf} (hwf : r.WF N) {i : Nat}
    (hi : i < r.size N) : (r.tail + i) % N ≠ r.head := by
  obtain ⟨hh, ht, -⟩ := hwf
  simp only [RingBuf.size] at hi
  rw [mod_two_cases (by split at hi <;> omega)]
  split at hi <;> split <;> omega

/-- On a non-full buffer, `push` succeeds and yields the expected record. -/
lemma push_not_full {N : Nat} {r : RingBuf} (hwf : r.WF N)
    (hsz : r.size N < N - 1) (b : Nat) :
    r.push N b =
      ({ buffer := r.buffer.set r.head b,
         head := if r.head + 1 = N then 0 else r.head + 1,
         tail := r.tail }, true) := by
  obtain ⟨hh, ht, -⟩ := hwf
  have hne : (if r.head + 1 = N then 0 else r.head + 1) ≠ r.tail := by
    simp only [RingBuf.size] at hsz
    split at hsz <;> split <;> omega
  simp only [RingBuf.push, if_neg hne]

/-- On a full buffer (`size = N - 1`), `push` fails and returns the
buffer unchanged. -/
lemma push_full {N : Nat} {r : RingBuf} (hwf : r.WF N)
    (hsz : r.size N = N - 1) (b : Nat) : r.push N b = (r, false) := by
  obtain ⟨hh, ht, -⟩ := hwf
  have heq : (if r.head + 1 = N then 0 else r.head + 1) = r.tail := by
    simp only [RingBuf.size] at hsz
    split at hsz <;> split <;> omega
  simp only [RingBuf.push, if_pos heq]

lemma wf_push_not_full {N : Nat} {r : RingBuf} (hwf : r.WF N)
    (hsz : r.size N < N - 1) (b : Nat) : ((r.push N b).1).WF N := by
  rw [push_not_full hwf hsz b]
  obtain ⟨hh, ht, hb⟩ := hwf
  refine ⟨?_, ht, by simpa using hb⟩
  show (if r.head + 1 = N then 0 else r.head + 1) < N
  split <;> omega

lemma size_push_not_full {N : Nat} {r : RingBuf} (hwf : r.WF N)
    (hsz : r.size N < N - 1) (b : Nat) :
    ((r.push N b).1).size N = r.size N + 1 := by
  rw [push_not_full hwf hsz b]
  obtain ⟨hh, ht, -⟩ := hwf
  simp only [RingBuf.size] at hsz ⊢
  by_cases hw : r.head + 1 = N <;> simp only [hw, if_true, if_false] <;>
    split at hsz <;> split <;> omega

lemma toList_push_not_full {N : Nat} {r : RingBuf} (hwf : r.WF N)
    (hsz : r.size N < N - 1) (b : Nat) :
    ((r.push N b).1).toList N = r.toList N ++ [b] := by
  have hsz' := size_push_not_full hwf hsz b
  rw [push_not_full hwf hsz b] at hsz' ⊢
  obtain ⟨hh, ht, hb⟩ := hwf
  simp only [RingBuf.toList] at hsz' ⊢
  rw [hsz', List.range_succ, List.map_append]
  congr 1
  · apply List.map_congr_left
    intro i hi
    have hi' : i < r.size N := List.mem_range.mp hi
    exact getD_set_ne b fun hc => pos_ne_head ⟨hh, ht, hb⟩ hi' hc.symm
  · simp only [List.map_cons, List.map_nil]
    rw [pos_size ⟨hh, ht, hb⟩]
    rw [getD_set_self b (hb ▸ hh)]

/-- `pop` advances `tail` with wrap-around; resulting record. -/
lemma pop_eq {N : Nat} (r : RingBuf) :
    r.pop N = (r.buffer.getD r.tail 0,
      { r with tail := if r.tail + 1 = N then 0 else r.tail + 1 }) := rfl

lemma wf_pop {N : Nat} {r : RingBuf} (hwf : r.WF N) : ((r.pop N).2).WF N := by
  obtain ⟨hh, ht, hb⟩ := hwf
  refine ⟨hh, ?_, hb⟩
  simp only [RingBuf.pop]
  split <;> omega

lemma size_pop {N : Nat} {r : RingBuf} (hwf : r.WF N) (hne : r.head ≠ r.tail) :
    ((r.pop N).2).size N = r.size N - 1 := by
  obtain ⟨hh, ht, -⟩ := hwf
  simp only [RingBuf.pop, RingBuf.size]
  by_cases hw : r.tail + 1 = N <;> simp only [hw, if_true, if_false] <;>
    split <;> split <;> omega

/-- Popping a non-empty buffer takes the first live byte. -/
lemma toList_pop {N : Nat} {r : RingBuf} (hwf : r.WF N) (hne : r.head ≠ r.tail) :
    r.toList N = (r.pop N).1 :: ((r.pop N).2).toList N := by
  have hsz := size_pop hwf hne
  have hpos := size_pos hwf hne
  obtain ⟨hh, ht, hb⟩ := hwf
  simp only [RingBuf.toList, RingBuf.pop] at hsz ⊢
  rw [show r.size N = ((r.pop N).2).size N + 1 by
        simp only [RingBuf.pop] at hsz ⊢; omega]
  rw [List.range_succ_eq_map, List.map_cons, List.map_map]
  congr 1
  · rw [Nat.add_zero, Nat.mod_eq_of_lt ht]
  · apply List.map_congr_left
    intro i hi
    simp only [Function.comp]
    have h1 : ((if r.tail + 1 = N then 0 else r.tail + 1) + i) % N
        = (r.tail + Nat.succ i) % N := by
      have h2 : (if r.tail + 1 = N then 0 else r.tail + 1) = (r.tail + 1) % N := by
        split
        · rename_i he; rw [he, Nat.mod_self]
        · exact (Nat.mod_eq_of_lt (by omega)).symm
      rw [h2, Nat.mod_add_mod]
      congr 1
      omega
    rw [h1]

lemma pushBytes_cons (N : Nat) (r : RingBuf) (d : Nat) (rest : List Nat) :
    r.pushBytes N (d :: rest) =
      match r.push N d with
      | (r', true) => r'.pushBytes N rest
      | (_, false) => r := rfl

lemma pushBytes_cons_succ {N : Nat} {r : RingBuf} {d : Nat} (rest : List Nat)
    (h : (r.push N d).2 = true) :
    r.pushBytes N (d :: rest) = ((r.push N d).1).pushBytes N rest := by
  rcases hp : r.push N d with ⟨r', fl⟩
  rw [hp] at h
  cases fl
  · simp at h
  · rw [pushBytes_cons, hp]

/-- The push loop appends as many bytes as fit (free space is
`N - 1 - size`) and silently drops the remainder. -/
lemma toList_pushBytes {N : Nat} : ∀ (ds : List Nat) {r : RingBuf}, r.WF N →
    (r.pushBytes N ds).toList N = r.toList N ++ ds.take (N - 1 - r.size N) ∧
      (r.pushBytes N ds).WF N := by
  intro ds
  induction ds with
  | nil => intro r hwf; simpa [RingBuf.pushBytes] using hwf
  | cons d rest ih =>
    intro r hwf
    by_cases hfull : r.size N = N - 1
    · refine ⟨?_, ?_⟩
      · rw [pushBytes_cons, push_full hwf hfull d, hfull]
        simp
      · rw [pushBytes_cons, push_full hwf hfull d]
        exact hwf
    · have hsz : r.size N < N - 1 := lt_of_le_of_ne (size_le hwf) hfull
      have htrue : (r.push N d).2 = true := by rw [push_not_full hwf hsz d]
      rw [pushBytes_cons_succ rest htrue]
      obtain ⟨ihl, ihwf⟩ := ih (wf_push_not_full hwf hsz d)
      refine ⟨?_, ihwf⟩
      rw [ihl, toList_push_not_full hwf hsz d, size_push_not_full hwf hsz d,
        List.append_assoc]
      congr 1
      have hstep : N - 1 - r.size N = (N - 1 - (r.size N + 1)) + 1 := by omega
      rw [hstep, List.take_succ_cons]
      rfl

lemma popList_spec {N : Nat} : ∀ (k : Nat) {r : RingBuf}, r.WF N → k ≤ r.size N →
    (popList N k r).1 = (r.toList N).take k ∧
      ((popList N k r).2).toList N = (r.toList N).drop k ∧
      ((popList N k r).2).WF N := by
  intro k
  induction k with
  | zero => intro r hwf _; simpa [popList] using hwf
  | succ k ih =>
    intro r hwf hk
    have hne : r.head ≠ r.tail := by
      intro he
      have := size_zero_of_eq (N := N) (r := r) he
      omega
    have hlist := toList_pop hwf hne
    obtain ⟨h1, h2, h3⟩ := ih (wf_pop hwf) (by rw [size_pop hwf hne]; omega)
    refine ⟨?_, ?_, h3⟩
    · simp [popList, hlist, h1]
    · simp [popList, hlist, h2]

end RingBuf

lemma take_append_take (a ds rest : List Nat) {n : Nat} (ha : a.length ≤ n) :
    (a ++ (ds.take (n - a.length) ++ rest)).take n = (a ++ (ds ++ rest)).take n := by
  simp only [List.take_append_eq_append_take, List.take_take, List.length_take,
    List.take_of_length_le ha, Nat.min_self]
  congr 2
  congr 1
  omega

lemma writeEvents_toList {N : Nat} : ∀ (es : List (List Nat)) {r : RingBuf},
    r.WF N →
    (writeEvents N es r).toList N = (r.toList N ++ es.flatten).take (N - 1) ∧
      (writeEvents N es r).WF N := by
  intro es
  induction es with
  | nil =>
    intro r hwf
    refine ⟨?_, hwf⟩
    simp only [writeEvents, List.foldl_nil, List.flatten_nil, List.append_nil]
    rw [List.take_of_length_le (by rw [RingBuf.length_toList]; exact RingBuf.size_le hwf)]
  | cons ds es ih =>
    intro r hwf
    obtain ⟨h1, h2⟩ := RingBuf.toList_pushBytes ds hwf
    obtain ⟨ihl, ihwf⟩ := ih h2
    refine ⟨?_, ihwf⟩
    show (writeEvents N es (r.pushBytes N ds)).toList N = _
    rw [ihl, h1, List.append_assoc, List.flatten_cons]
    have hlen : (r.toList N).length ≤ N - 1 := by
      rw [RingBuf.length_toList]; exact RingBuf.size_le hwf
    have := take_append_take (r.toList N) ds es.flatten hlen
    simp only [RingBuf.length_toList] at this
    rw [this]

lemma sendRetry_congestion (chunk : List Nat) : ∀ (n : Nat),
    sendRetry chunk (List.replicate n .resources ++ [.success]) =
      ((List.replicate n [SendAction.attempt chunk, SendAction.delay100us]).flatten
        ++ [SendAction.attempt chunk], .ok) := by
  intro n
  induction n with
  | zero => simp [sendRetry]
  | succ n ih => simp [List.replicate_succ, sendRetry, ih]

lemma popChunkAux_spec {N mtu : Nat} : ∀ (fuel : Nat) {r : RingBuf} (out : List Nat),
    r.WF N → r.size N ≤ fuel →
    (popChunkAux N mtu fuel r out).1
        = out ++ (r.toList N).take (chunkK mtu (r.size N) out.length) ∧
      ((popChunkAux N mtu fuel r out).2).toList N
        = (r.toList N).drop (chunkK mtu (r.size N) out.length) ∧
      ((popChunkAux N mtu fuel r out).2).WF N := by
  intro fuel
  induction fuel with
  | zero =>
    intro r out hwf hfu
    have hsz : r.size N = 0 := Nat.le_zero.mp hfu
    simp [popChunkAux, chunkK, hsz, hwf]
  | succ fuel ih =>
    intro r out hwf hfu
    by_cases hempty : r.tail = r.head
    · have hsz : r.size N = 0 := RingBuf.size_zero_of_eq hempty.symm
      simp [popChunkAux, hempty, chunkK, hsz, hwf]
    · have hne : r.head ≠ r.tail := fun h => hempty h.symm
      have hlist := RingBuf.toList_pop hwf hne
      have hwf' := RingBuf.wf_pop hwf
      have hszpop := RingBuf.size_pop hwf hne
      have hpos := RingBuf.size_pos hwf hne
      by_cases hstop : mtu ≤ out.length + 1
      · have hk : chunkK mtu (r.size N) out.length = 1 := by
          simp only [chunkK]
          rw [if_neg (by omega)]
          omega
        refine ⟨?_, ?_, ?_⟩
        · simp only [popChunkAux, if_neg hempty]
          rw [if_pos (by simp; omega)]
          rw [hk, hlist]
          simp
        · simp only [popChunkAux, if_neg hempty]
          rw [if_pos (by simp; omega)]
          rw [hk, hlist]
          simp
        · simp only [popChunkAux, if_neg hempty]
          rw [if_pos (by simp; omega)]
          exact hwf'
      · obtain ⟨ih1, ih2, ih3⟩ :=
          ih (r := (r.pop N).2) (out ++ [(r.pop N).1]) hwf' (by omega)
        have hk : chunkK mtu (r.size N) out.length
            = chunkK mtu (((r.pop N).2).size N) (out ++ [(r.pop N).1]).length + 1 := by
          simp only [chunkK, List.length_append, List.length_cons, List.length_nil]
          rw [hszpop]
          split <;> split <;> omega
        refine ⟨?_, ?_, ?_⟩
        · simp only [popChunkAux, if_neg hempty]
          rw [if_neg (by simp; omega)]
          rw [ih1, hk, hlist]
          simp
        · simp only [popChunkAux, if_neg hempty]
          rw [if_neg (by simp; omega)]
          rw [ih2, hk, hlist]
          simp
        · simp only [popChunkAux, if_neg hempty]
          rw [if_neg (by simp; omega)]
          exact ih3

lemma wf_push_any {N : Nat} {r : RingBuf} (hwf : r.WF N) (b : Nat) :
    ((r.push N b).1).WF N := by
  by_cases h : r.size N = N - 1
  · rw [RingBuf.push_full hwf h b]; exact hwf
  · exact RingBuf.wf_push_not_full hwf (lt_of_le_of_ne (RingBuf.size_le hwf) h) b

lemma wf_applyOp {N : Nat} {r : RingBuf} (hwf : r.WF N) (op : BufOp) :
    (applyOp N r op).WF N := by
  cases op with
  | push b => exact wf_push_any hwf b
  | pop =>
    simp only [applyOp]
    split
    · exact hwf
    · exact RingBuf.wf_pop hwf

lemma wf_applyOps {N : Nat} : ∀ (ops : List BufOp) {r : RingBuf}, r.WF N →
    (applyOps N ops r).WF N := by
  intro ops
  induction ops with
  | nil => intro r hwf; exact hwf
  | cons op rest ih =>
    intro r hwf
    exact ih (wf_applyOp hwf op)

/-- A run of `BLE_GATTS_EVT_WRITE` events through the real event switch
only touches the rx buffer, exactly as `writeEvents`. -/
lemma processEvts_writes : ∀ (es : List (List Nat)) (s : BleState),
    (processEvts s (es.map .gattsWrite)).rx
      = writeEvents RING_BUFFER_LENGTH es s.rx := by
  intro es
  induction es with
  | nil => intro s; rfl
  | cons ds es ih =>
    intro s
    show (processEvts _ (es.map .gattsWrite)).rx = _
    rw [ih]
    rfl

/-- Trace invariants of the `mp_hal_stdin_rx_chr` loop, relative to the
trace accumulator `tr`: every `popped` entry records a non-empty rx
buffer and the byte read at its `tail`; every `calledSender` entry
records an empty rx buffer; every `waited` entry records both buffers
empty; and a successful run ends in exactly one final pop. -/
lemma rx_chr_trace (N mtu : Nat) : ∀ (fuel : Nat) (env : Nat → EnvStep) (i : Nat)
    (s : RxTx) (tr : List ReadAction) (b : Nat) (s' : RxTx)
    (tr' : List ReadAction),
    mp_hal_stdin_rx_chr N mtu fuel env i s tr = some (b, s', tr') →
    (∀ st b0, ReadAction.popped st b0 ∈ tr' → ReadAction.popped st b0 ∈ tr ∨
        (st.rx.head ≠ st.rx.tail ∧ b0 = (st.rx.pop N).1)) ∧
      (∀ st, ReadAction.calledSender st ∈ tr' →
        ReadAction.calledSender st ∈ tr ∨ st.rx.head = st.rx.tail) ∧
      (∀ st, ReadAction.waited st ∈ tr' → ReadAction.waited st ∈ tr ∨
        (st.rx.head = st.rx.tail ∧ st.tx.head = st.tx.tail)) ∧
      (∃ st, st.rx.head ≠ st.rx.tail ∧ b = (st.rx.pop N).1 ∧
        s' = { st with rx := (st.rx.pop N).2 } ∧
        tr'.getLast? = some (.popped st b)) := by
  intro fuel
  induction fuel with
  | zero =>
    intro env i s tr b s' tr' hrun
    simp [mp_hal_stdin_rx_chr] at hrun
  | succ fuel ih =>
    intro env i s tr b s' tr' hrun
    simp only [mp_hal_stdin_rx_chr] at hrun
    split at hrun
    · rename_i hrx
      split at hrun
      · rename_i hwait
        obtain ⟨p1, p2, p3, p4⟩ := ih env (i + 1) _ _ b s' tr' hrun
        refine ⟨?_, ?_, ?_, p4⟩
        · intro st b0 hm
          rcases p1 st b0 hm with h | h
          · rcases List.mem_append.mp h with h | h
            · rcases List.mem_append.mp h with h | h
              · exact Or.inl h
              · simp at h
            · simp at h
          · exact Or.inr h
        · intro st hm
          rcases p2 st hm with h | h
          · rcases List.mem_append.mp h with h | h
            · rcases List.mem_append.mp h with h | h
              · exact Or.inl h
              · rw [List.mem_singleton, ReadAction.calledSender.injEq] at h
                subst h
                exact Or.inr hrx
            · simp at h
          · exact Or.inr h
        · intro st hm
          rcases p3 st hm with h | h
          · rcases List.mem_append.mp h with h | h
            · rcases List.mem_append.mp h with h | h
              · exact Or.inl h
              · simp at h
            · rw [List.mem_singleton, ReadAction.waited.injEq] at h
              subst h
              exact Or.inr ⟨hrx, hwait.1⟩
          · exact Or.inr h
      · rename_i hwait
        obtain ⟨p1, p2, p3, p4⟩ := ih env (i + 1) _ _ b s' tr' hrun
        refine ⟨?_, ?_, ?_, p4⟩
        · intro st b0 hm
          rcases p1 st b0 hm with h | h
          · rcases List.mem_append.mp h with h | h
            · exact Or.inl h
            · simp at h
          · exact Or.inr h
        · intro st hm
          rcases p2 st hm with h | h
          · rcases List.mem_append.mp h with h | h
            · exact Or.inl h
            · rw [List.mem_singleton, ReadAction.calledSender.injEq] at h
              subst h
              exact Or.inr hrx
          · exact Or.inr h
        · intro st hm
          rcases p3 st hm with h | h
          · rcases List.mem_append.mp h with h | h
            · exact Or.inl h
            · simp at h
          · exact Or.inr h
    · rename_i hrx
      simp only [Option.some.injEq, Prod.mk.injEq] at hrun
      obtain ⟨hb, hs, htr⟩ := hrun
      subst hb
      subst hs
      subst htr
      refine ⟨?_, ?_, ?_, ⟨s, hrx, rfl, rfl, List.getLast?_concat _⟩⟩
      · intro st b0 hm
        rcases List.mem_append.mp hm with h | h
        · exact Or.inl h
        · rw [List.mem_singleton, ReadAction.popped.injEq] at h
          obtain ⟨h1, h2⟩ := h
          subst h1
          subst h2
          exact Or.inr ⟨hrx, rfl⟩
      · intro st hm
        rcases List.mem_append.mp hm with h | h
        · exact Or.inl h
        · simp at h
      · intro st hm
        rcases List.mem_append.mp hm with h | h
        · exact Or.inl h
        · simp at h

/-- C1 as the spec states it is false on the code: `negotiated_mtu` is
never reset by the `BLE_GAP_EVT_DISCONNECTED` arm.  After connect, an
MTU exchange with client proposal 64 (payload 61) and a disconnect,
`max_payload` still returns 61 while the pre-negotiation default is
0. -/
theorem C1_disconnect_mtu_counterexample :
    max_payload initialBleState = 0 ∧
      max_payload (processEvts initialBleState
        [.gapConnected 0, .gattsExchangeMtuRequest 0 64, .gapDisconnected]) = 61 ∧
      ¬ (max_payload (processEvts initialBleState
          [.gapConnected 0, .gattsExchangeMtuRequest 0 64, .gapDisconnected])
        = max_payload initialBleState) :=
  ⟨rfl, rfl, by decide⟩

/-- C1 amended: processing a disconnect event clears the connection
handle and restarts advertising but leaves the negotiated payload
unchanged, so `max_payload` afterwards still returns the value from the
last negotiation, not the pre-negotiation default. -/
theorem C1_disconnect_keeps_negotiated_payload (s : BleState) :
    (SWI2_handle_ble_evt s .gapDisconnected).1.connection
        = BLE_CONN_HANDLE_INVALID ∧
      (SWI2_handle_ble_evt s .gapDisconnected).2 = [.advStart] ∧
      max_payload (SWI2_handle_ble_evt s .gapDisconnected).1 = max_payload s ∧
      (SWI2_handle_ble_evt s .gapDisconnected).1.rx = s.rx :=
  ⟨rfl, rfl, rfl, rfl⟩

/-- C4: an MTU-exchange event with client proposal `m` (a `uint16`,
here with `3 ≤ m` so the framing subtraction does not underflow — the
`m < 3` corner is the subject of C10) makes the handler reply with the
device maximum `MAX_MTU_LENGTH = 128` and store `min 128 m - 3` as the
negotiated payload; in particular `m = 64` yields `64 - 3 = 61`. -/
theorem C4_mtu_negotiation (s : BleState) (h m : Nat) (h3 : 3 ≤ m)
    (h16 : m < 2 ^ 16) :
    (SWI2_handle_ble_evt s (.gattsExchangeMtuRequest h m)).2
        = [.mtuReply h MAX_MTU_LENGTH] ∧
      MAX_MTU_LENGTH = 128 ∧
      max_payload (SWI2_handle_ble_evt s (.gattsExchangeMtuRequest h m)).1
        = min 128 m - 3 ∧
      (m = 64 →
        max_payload (SWI2_handle_ble_evt s (.gattsExchangeMtuRequest h m)).1 = 61) := by
  refine ⟨rfl, rfl, ?_, ?_⟩
  · simp only [SWI2_handle_ble_evt, max_payload, MAX_MTU_LENGTH]
    split
    · omega
    · omega
  · intro hm
    subst hm
    rfl

theorem C4_mtu_negotiation_witness :
    (3 ≤ 64 ∧ 64 < 2 ^ 16) ∧
      ((SWI2_handle_ble_evt initialBleState (.gattsExchangeMtuRequest 0 64)).2
          = [.mtuReply 0 MAX_MTU_LENGTH] ∧
        MAX_MTU_LENGTH = 128 ∧
        max_payload (SWI2_handle_ble_evt initialBleState
            (.gattsExchangeMtuRequest 0 64)).1 = min 128 64 - 3 ∧
        (64 = 64 →
          max_payload (SWI2_handle_ble_evt initialBleState
            (.gattsExchangeMtuRequest 0 64)).1 = 61)) :=
  ⟨⟨by decide, by decide⟩,
    C4_mtu_negotiation initialBleState 0 64 (by decide) (by decide)⟩

/-- C10: an MTU-exchange event proposing `m < 3` stores
`(m - 3) mod 2^16`, computed in 16-bit unsigned arithmetic — e.g.
`m = 2` yields 65535 — a value exceeding the device's 125-byte local
maximum payload; the handler checks no lower bound on the proposal. -/
theorem C10_mtu_underflow (s : BleState) (h m : Nat) (hm : m < 3) :
    ((max_payload (SWI2_handle_ble_evt s (.gattsExchangeMtuRequest h m)).1 : Int)
        = ((m : Int) - 3) % 2 ^ 16) ∧
      MAX_MTU_LENGTH - 3
        < max_payload (SWI2_handle_ble_evt s (.gattsExchangeMtuRequest h m)).1 ∧
      (m = 2 →
        max_payload (SWI2_handle_ble_evt s (.gattsExchangeMtuRequest h m)).1
          = 65535) := by
  refine ⟨?_, ?_, ?_⟩
  · simp only [SWI2_handle_ble_evt, max_payload, MAX_MTU_LENGTH]
    rw [if_neg (by omega)]
    omega
  · simp only [SWI2_handle_ble_evt, max_payload, MAX_MTU_LENGTH]
    rw [if_neg (by omega)]
    omega
  · intro hm2
    subst hm2
    rfl

theorem C10_mtu_underflow_witness :
    2 < 3 ∧
      (((max_payload (SWI2_handle_ble_evt initialBleState
            (.gattsExchangeMtuRequest 0 2)).1 : Int) = ((2 : Int) - 3) % 2 ^ 16) ∧
        MAX_MTU_LENGTH - 3
          < max_payload (SWI2_handle_ble_evt initialBleState
              (.gattsExchangeMtuRequest 0 2)).1 ∧
        (2 = 2 →
          max_payload (SWI2_handle_ble_evt initialBleState
            (.gattsExchangeMtuRequest 0 2)).1 = 65535)) :=
  ⟨by decide, C10_mtu_underflow initialBleState 0 2 (by decide)⟩

/-- C6: on a full buffer — advancing `head` would make it equal `tail`
— a push attempt fails and returns the buffer record unchanged (same
bytes, same `head`, same `tail`), and the `mp_hal_stdout_tx_strn` write
loop consequently drops its whole input and changes no state. -/
theorem C6_push_full_unchanged (N : Nat) (r : RingBuf) (b : Nat)
    (str : List Nat)
    (hfull : (if r.head + 1 = N then 0 else r.head + 1) = r.tail) :
    r.push N b = (r, false) ∧ mp_hal_stdout_tx_strn N r str = r := by
  have hp : ∀ c, r.push N c = (r, false) := fun c => by
    simp only [RingBuf.push, if_pos hfull]
  refine ⟨hp b, ?_⟩
  cases str with
  | nil => rfl
  | cons c rest =>
    rw [mp_hal_stdout_tx_strn, RingBuf.pushBytes_cons, hp c]

theorem C6_push_full_unchanged_witness :
    ((if 3 + 1 = 4 then 0 else 3 + 1) = 0) ∧
      ((⟨[10, 20, 30, 0], 3, 0⟩ : RingBuf).push 4 99
          = (⟨[10, 20, 30, 0], 3, 0⟩, false) ∧
        mp_hal_stdout_tx_strn 4 ⟨[10, 20, 30, 0], 3, 0⟩ [1, 2]
          = ⟨[10, 20, 30, 0], 3, 0⟩) :=
  ⟨by decide, C6_push_full_unchanged 4 ⟨[10, 20, 30, 0], 3, 0⟩ 99 [1, 2] (by decide)⟩

/-- C2: FIFO round-trip for the ring buffers (the rx and tx buffers are
two instances of the same structure and loops): pushing any byte
sequence of length at most `N - 1` into an empty buffer through the
source's push loop and then popping the same number of bytes returns
exactly the pushed bytes in push order. -/
theorem C2_fifo_roundtrip (N : Nat) (xs : List Nat) (hN : 0 < N)
    (hlen : xs.length ≤ N - 1) :
    (popList N xs.length (mp_hal_stdout_tx_strn N (RingBuf.empty N) xs)).1 = xs := by
  have hwf := RingBuf.wf_empty hN
  obtain ⟨h1, h2⟩ := RingBuf.toList_pushBytes xs hwf
  have hsize0 : (RingBuf.empty N).size N = 0 := by
    simp [RingBuf.empty, RingBuf.size]
  rw [RingBuf.toList_empty, hsize0] at h1
  have hcontent : ((RingBuf.empty N).pushBytes N xs).toList N = xs := by
    rw [h1, List.nil_append, Nat.sub_zero, List.take_of_length_le hlen]
  obtain ⟨p1, -, -⟩ := RingBuf.popList_spec xs.length h2
    (by rw [← RingBuf.length_toList, hcontent])
  rw [mp_hal_stdout_tx_strn, p1, hcontent, List.take_length]

theorem C2_fifo_roundtrip_witness :
    (0 < RING_BUFFER_LENGTH ∧
        ([17, 23, 42] : List Nat).length ≤ RING_BUFFER_LENGTH - 1) ∧
      (popList RING_BUFFER_LENGTH ([17, 23, 42] : List Nat).length
        (mp_hal_stdout_tx_strn RING_BUFFER_LENGTH
          (RingBuf.empty RING_BUFFER_LENGTH) [17, 23, 42])).1 = [17, 23, 42] :=
  ⟨⟨by decide, by decide⟩,
    C2_fifo_roundtrip RING_BUFFER_LENGTH [17, 23, 42] (by decide) (by decide)⟩

/-- C9: starting from `head = tail = 0`, every sequence of push and pop
operations (pops guarded by `head != tail`, as at both pop sites) keeps
both indices strictly below `RING_BUFFER_LENGTH = 1069` at every
intermediate state, keeps the backing storage at length 1069 — so every
buffer access `buffer[head]` / `buffer[tail]` is in bounds — and keeps
at most 1068 live bytes in the buffer. -/
theorem C9_ring_indices_in_bounds (ops : List BufOp) (k : Nat) :
    (applyOps RING_BUFFER_LENGTH (ops.take k)
        (RingBuf.empty RING_BUFFER_LENGTH)).head < 1069 ∧
      (applyOps RING_BUFFER_LENGTH (ops.take k)
        (RingBuf.empty RING_BUFFER_LENGTH)).tail < 1069 ∧
      (applyOps RING_BUFFER_LENGTH (ops.take k)
        (RingBuf.empty RING_BUFFER_LENGTH)).buffer.length = 1069 ∧
      (applyOps RING_BUFFER_LENGTH (ops.take k)
        (RingBuf.empty RING_BUFFER_LENGTH)).size RING_BUFFER_LENGTH ≤ 1068 := by
  have hwf := wf_applyOps (N := RING_BUFFER_LENGTH) (ops.take k)
    (RingBuf.wf_empty (by norm_num [RING_BUFFER_LENGTH]))
  have hsz := RingBuf.size_le hwf
  obtain ⟨hh, ht, hb⟩ := hwf
  exact ⟨hh, ht, hb, hsz⟩

/-- C3: with a non-empty tx buffer, if the first `n` transmit attempts
return `NRF_ERROR_RESOURCES` and the next one succeeds,
`ble_send_pending_data` performs exactly `n + 1` attempts — every
attempt transmitting the same chunk that was popped before the first
attempt, each retry preceded by the fixed 100 us delay — ends
successfully, and the popped chunk followed by the remaining buffer
contents reconstitutes the original contents exactly (no re-push into
the buffer, no duplication, no loss). -/
theorem C3_congestion_retry (N mtu n : Nat) (tx : RingBuf) (hwf : tx.WF N)
    (hne : tx.head ≠ tx.tail) :
    (ble_send_pending_data N mtu tx
        (List.replicate n .resources ++ [.success])).2.2 = .ok ∧
      (ble_send_pending_data N mtu tx
          (List.replicate n .resources ++ [.success])).2.1
        = (List.replicate n
              [SendAction.attempt (sentChunk N mtu tx), SendAction.delay100us]).flatten
            ++ [SendAction.attempt (sentChunk N mtu tx)] ∧
      tx.toList N
        = sentChunk N mtu tx
            ++ ((ble_send_pending_data N mtu tx
                (List.replicate n .resources ++ [.success])).1).toList N := by
  have hfuel : tx.size N ≤ N := le_trans (RingBuf.size_le hwf) (Nat.sub_le N 1)
  obtain ⟨h1, h2, -⟩ := popChunkAux_spec N ([] : List Nat) hwf hfuel
  refine ⟨?_, ?_, ?_⟩
  · simp only [ble_send_pending_data, if_neg hne]
    rw [sendRetry_congestion]
  · simp only [ble_send_pending_data, if_neg hne, sentChunk]
    rw [sendRetry_congestion]
  · simp only [ble_send_pending_data, if_neg hne, sentChunk]
    rw [h1, h2, List.nil_append, List.take_append_drop]

theorem C3_congestion_retry_witness :
    ((⟨[7, 8, 0, 0], 2, 0⟩ : RingBuf).WF 4 ∧ (2 : Nat) ≠ 0) ∧
      ((ble_send_pending_data 4 1 ⟨[7, 8, 0, 0], 2, 0⟩
          (List.replicate 2 .resources ++ [.success])).2.2 = .ok ∧
        (ble_send_pending_data 4 1 ⟨[7, 8, 0, 0], 2, 0⟩
            (List.replicate 2 .resources ++ [.success])).2.1
          = (List.replicate 2
                [SendAction.attempt (sentChunk 4 1 ⟨[7, 8, 0, 0], 2, 0⟩),
                 SendAction.delay100us]).flatten
              ++ [SendAction.attempt (sentChunk 4 1 ⟨[7, 8, 0, 0], 2, 0⟩)] ∧
        (⟨[7, 8, 0, 0], 2, 0⟩ : RingBuf).toList 4
          = sentChunk 4 1 ⟨[7, 8, 0, 0], 2, 0⟩
              ++ ((ble_send_pending_data 4 1 ⟨[7, 8, 0, 0], 2, 0⟩
                  (List.replicate 2 .resources ++ [.success])).1).toList 4) :=
  ⟨⟨⟨by decide, by decide, by decide⟩, by decide⟩,
    C3_congestion_retry 4 1 2 ⟨[7, 8, 0, 0], 2, 0⟩
      ⟨by decide, by decide, by decide⟩ (by decide)⟩

/-- C7: with a non-empty tx buffer, if the transmit attempt returns a
not-connected class error (`NRF_ERROR_INVALID_STATE` or
`BLE_ERROR_INVALID_CONN_HANDLE`), `ble_send_pending_data` returns after
that single attempt: no retry, no 100 us delay, no system reset, and
the popped chunk is discarded — the buffer keeps only the bytes after
the chunk and the chunk is not re-pushed. -/
theorem C7_not_connected_discard (N mtu : Nat) (tx : RingBuf)
    (res : HvxResult) (rest : List HvxResult) (hwf : tx.WF N)
    (hne : tx.head ≠ tx.tail)
    (hres : res = .invalidState ∨ res = .invalidConnHandle) :
    (ble_send_pending_data N mtu tx (res :: rest)).2.2
        = .notConnectedDiscard ∧
      (ble_send_pending_data N mtu tx (res :: rest)).2.1
        = [.attempt (sentChunk N mtu tx)] ∧
      SendAction.systemReset ∉ (ble_send_pending_data N mtu tx (res :: rest)).2.1 ∧
      SendAction.delay100us ∉ (ble_send_pending_data N mtu tx (res :: rest)).2.1 ∧
      tx.toList N
        = sentChunk N mtu tx
            ++ ((ble_send_pending_data N mtu tx (res :: rest)).1).toList N := by
  have hfuel : tx.size N ≤ N := le_trans (RingBuf.size_le hwf) (Nat.sub_le N 1)
  obtain ⟨h1, h2, -⟩ := popChunkAux_spec N ([] : List Nat) hwf hfuel
  have hsr : ∀ chunk : List Nat, sendRetry chunk (res :: rest)
      = ([.attempt chunk], .notConnectedDiscard) := by
    intro chunk
    rcases hres with h | h <;> subst h <;> rfl
  refine ⟨?_, ?_, ?_, ?_, ?_⟩
  · simp only [ble_send_pending_data, if_neg hne]
    rw [hsr]
  · simp only [ble_send_pending_data, if_neg hne, sentChunk]
    rw [hsr]
  · simp only [ble_send_pending_data, if_neg hne]
    rw [hsr]
    simp
  · simp only [ble_send_pending_data, if_neg hne]
    rw [hsr]
    simp
  · simp only [ble_send_pending_data, if_neg hne, sentChunk]
    rw [h1, h2, List.nil_append, List.take_append_drop]

theorem C7_not_connected_discard_witness :
    ((⟨[7, 8, 0, 0], 2, 0⟩ : RingBuf).WF 4 ∧ (2 : Nat) ≠ 0 ∧
        (HvxResult.invalidState = HvxResult.invalidState ∨
          HvxResult.invalidState = HvxResult.invalidConnHandle)) ∧
      ((ble_send_pending_data 4 1 ⟨[7, 8, 0, 0], 2, 0⟩
          [.invalidState]).2.2 = .notConnectedDiscard ∧
        (ble_send_pending_data 4 1 ⟨[7, 8, 0, 0], 2, 0⟩ [.invalidState]).2.1
          = [.attempt (sentChunk 4 1 ⟨[7, 8, 0, 0], 2, 0⟩)] ∧
        SendAction.systemReset
          ∉ (ble_send_pending_data 4 1 ⟨[7, 8, 0, 0], 2, 0⟩ [.invalidState]).2.1 ∧
        SendAction.delay100us
          ∉ (ble_send_pending_data 4 1 ⟨[7, 8, 0, 0], 2, 0⟩ [.invalidState]).2.1 ∧
        (⟨[7, 8, 0, 0], 2, 0⟩ : RingBuf).toList 4
          = sentChunk 4 1 ⟨[7, 8, 0, 0], 2, 0⟩
              ++ ((ble_send_pending_data 4 1 ⟨[7, 8, 0, 0], 2, 0⟩
                  [.invalidState]).1).toList 4) :=
  ⟨⟨⟨by decide, by decide, by decide⟩, by decide, Or.inl rfl⟩,
    C7_not_connected_discard 4 1 ⟨[7, 8, 0, 0], 2, 0⟩ .invalidState []
      ⟨by decide, by decide, by decide⟩ (by decide) (Or.inl rfl)⟩

/-- C5: data-delivery events append their payload bytes to the inbound
buffer in arrival order up to the free capacity `N - 1` and silently
drop the remainder — after any event sequence starting from an empty
buffer the contents are the first `N - 1` bytes of the concatenated
payloads, and popping them (`read_byte`'s non-blocking path) returns
exactly those bytes in order.  Running the events through the real
`SWI2_IRQHandler` switch (`BLE_GATTS_EVT_WRITE` arm) performs exactly
`writeEvents` on the rx buffer. -/
theorem C5_inbound_drop_policy (N : Nat) (es : List (List Nat)) (s : BleState)
    (hN : 0 < N) :
    (writeEvents N es (RingBuf.empty N)).toList N = es.flatten.take (N - 1) ∧
      (popList N (es.flatten.take (N - 1)).length
          (writeEvents N es (RingBuf.empty N))).1 = es.flatten.take (N - 1) ∧
      (processEvts s (es.map .gattsWrite)).rx
        = writeEvents RING_BUFFER_LENGTH es s.rx := by
  obtain ⟨hcontent, hwf⟩ := writeEvents_toList es (RingBuf.wf_empty hN)
  rw [RingBuf.toList_empty, List.nil_append] at hcontent
  refine ⟨hcontent, ?_, processEvts_writes es s⟩
  obtain ⟨p1, -, -⟩ := RingBuf.popList_spec (es.flatten.take (N - 1)).length hwf
    (by rw [← RingBuf.length_toList, hcontent])
  rw [p1, hcontent, List.take_length]

theorem C5_inbound_drop_policy_witness :
    0 < 8 ∧
      ((writeEvents 8 [[1, 2, 3, 4, 5], [6, 7, 8, 9, 10], [11, 12]]
            (RingBuf.empty 8)).toList 8
          = ([[1, 2, 3, 4, 5], [6, 7, 8, 9, 10], [11, 12]] :
              List (List Nat)).flatten.take (8 - 1) ∧
        (popList 8 (([[1, 2, 3, 4, 5], [6, 7, 8, 9, 10], [11, 12]] :
              List (List Nat)).flatten.take (8 - 1)).length
            (writeEvents 8 [[1, 2, 3, 4, 5], [6, 7, 8, 9, 10], [11, 12]]
              (RingBuf.empty 8))).1
          = ([[1, 2, 3, 4, 5], [6, 7, 8, 9, 10], [11, 12]] :
              List (List Nat)).flatten.take (8 - 1) ∧
        (processEvts initialBleState
            ([[1, 2, 3, 4, 5], [6, 7, 8, 9, 10], [11, 12]].map .gattsWrite)).rx
          = writeEvents RING_BUFFER_LENGTH
              [[1, 2, 3, 4, 5], [6, 7, 8, 9, 10], [11, 12]]
              initialBleState.rx) ∧
      ([[1, 2, 3, 4, 5], [6, 7, 8, 9, 10], [11, 12]] :
          List (List Nat)).flatten.take (8 - 1) = [1, 2, 3, 4, 5, 6, 7] :=
  ⟨by decide,
    C5_inbound_drop_policy 8 [[1, 2, 3, 4, 5], [6, 7, 8, 9, 10], [11, 12]]
      initialBleState (by decide),
    by decide⟩

/-- C8: any successful `mp_hal_stdin_rx_chr` run returns by popping the
inbound buffer: the final action is the pop, taken from a state whose
rx buffer is non-empty, and the returned byte is the byte at its
`tail`; the Outbound Sender is invoked exactly in the loop iterations
(states with empty rx); and `sd_app_evt_wait` is invoked only in states
where both the inbound and the outbound buffers are empty. -/
theorem C8_read_byte_blocking (N mtu fuel : Nat) (env : Nat → EnvStep)
    (s : RxTx) (b : Nat) (s' : RxTx) (tr : List ReadAction)
    (hrun : mp_hal_stdin_rx_chr N mtu fuel env 0 s [] = some (b, s', tr)) :
    (∀ st b0, ReadAction.popped st b0 ∈ tr →
        st.rx.head ≠ st.rx.tail ∧ b0 = (st.rx.pop N).1) ∧
      (∀ st, ReadAction.calledSender st ∈ tr → st.rx.head = st.rx.tail) ∧
      (∀ st, ReadAction.waited st ∈ tr →
        st.rx.head = st.rx.tail ∧ st.tx.head = st.tx.tail) ∧
      (∃ st, st.rx.head ≠ st.rx.tail ∧ b = (st.rx.pop N).1 ∧
        s' = { st with rx := (st.rx.pop N).2 } ∧
        tr.getLast? = some (.popped st b)) := by
  obtain ⟨p1, p2, p3, p4⟩ := rx_chr_trace N mtu fuel env 0 s [] b s' tr hrun
  refine ⟨?_, ?_, ?_, p4⟩
  · intro st b0 hm
    rcases p1 st b0 hm with h | h
    · simp at h
    · exact h
  · intro st hm
    rcases p2 st hm with h | h
    · simp at h
    · exact h
  · intro st hm
    rcases p3 st hm with h | h
    · simp at h
    · exact h

theorem C8_read_byte_blocking_witness :
    (mp_hal_stdin_rx_chr 4 0 3 (fun _ => ⟨[], [[42]]⟩) 0
        ⟨RingBuf.empty 4, RingBuf.empty 4⟩ []
      = some (42, ⟨⟨[42, 0, 0, 0], 1, 1⟩, RingBuf.empty 4⟩,
          [.calledSender ⟨RingBuf.empty 4, RingBuf.empty 4⟩,
            .waited ⟨RingBuf.empty 4, RingBuf.empty 4⟩,
            .popped ⟨⟨[42, 0, 0, 0], 1, 0⟩, RingBuf.empty 4⟩ 42])) ∧
      ((∀ st b0, ReadAction.popped st b0 ∈
            [ReadAction.calledSender ⟨RingBuf.empty 4, RingBuf.empty 4⟩,
              ReadAction.waited ⟨RingBuf.empty 4, RingBuf.empty 4⟩,
              ReadAction.popped ⟨⟨[42, 0, 0, 0], 1, 0⟩, RingBuf.empty 4⟩ 42] →
          st.rx.head ≠ st.rx.tail ∧ b0 = (st.rx.pop 4).1) ∧
        (∀ st, ReadAction.calledSender st ∈
            [ReadAction.calledSender ⟨RingBuf.empty 4, RingBuf.empty 4⟩,
              ReadAction.waited ⟨RingBuf.empty 4, RingBuf.empty 4⟩,
              ReadAction.popped ⟨⟨[42, 0, 0, 0], 1, 0⟩, RingBuf.empty 4⟩ 42] →
          st.rx.head = st.rx.tail) ∧
        (∀ st, ReadAction.waited st ∈
            [ReadAction.calledSender ⟨RingBuf.empty 4, RingBuf.empty 4⟩,
              ReadAction.waited ⟨RingBuf.empty 4, RingBuf.empty 4⟩,
              ReadAction.popped ⟨⟨[42, 0, 0, 0], 1, 0⟩, RingBuf.empty 4⟩ 42] →
          st.rx.head = st.rx.tail ∧ st.tx.head = st.tx.tail) ∧
        (∃ st, st.rx.head ≠ st.rx.tail ∧ 42 = (st.rx.pop 4).1 ∧
          (⟨⟨[42, 0, 0, 0], 1, 1⟩, RingBuf.empty 4⟩ : RxTx)
            = { st with rx := (st.rx.pop 4).2 } ∧
          ([ReadAction.calledSender ⟨RingBuf.empty 4, RingBuf.empty 4⟩,
              ReadAction.waited ⟨RingBuf.empty 4, RingBuf.empty 4⟩,
              ReadAction.popped ⟨⟨[42, 0, 0, 0], 1, 0⟩, RingBuf.empty 4⟩ 42] :
            List ReadAction).getLast? = some (.popped st 42))) :=
  ⟨by decide,
    C8_read_byte_blocking 4 0 3 (fun _ => ⟨[], [[42]]⟩)
      ⟨RingBuf.empty 4, RingBuf.empty 4⟩ 42
      ⟨⟨[42, 0, 0, 0], 1, 1⟩, RingBuf.empty 4⟩
      [.calledSender ⟨RingBuf.empty 4, RingBuf.empty 4⟩,
        .waited ⟨RingBuf.empty 4, RingBuf.empty 4⟩,
        .popped ⟨⟨[42, 0, 0, 0], 1, 0⟩, RingBuf.empty 4⟩ 42]
      (by decide)⟩

end S1
